import Mathlib

set_option maxHeartbeats 1000000

/-!
Verification development for `tools/draft_generator.py` of the
`structured_google_apis` repository.  The generator parses Google Docs API
documentation into resource models and emits Pydantic model source code.
This file gives a shallow embedding of the post-HTML pipeline: the type
signature parser (`parse_field_type`), the synthetic model completer
(the tail of `parse_models_from_xml`), the dependency resolver and code
emitter (`generate_pydantic_models`, `generate_model_code`,
`get_python_type`), together with theorems settling the specification
claims about them.
-/

namespace DraftGen

/-!
## String primitives

Python string operations used by the generator, modelled on `List Char`
so that the kernel can evaluate them directly.  `wsChar` is the Python
whitespace class used by `str.strip` and the regex class matching
whitespace.
-/

def wsChar (c : Char) : Bool :=
  c = ' ' || c = '\t' || c = '\n' || c = '\r' || c = '\x0b' || c = '\x0c'

/-- Python `str.strip()`. -/
def pyStrip (s : String) : String :=
  String.mk (((s.data.dropWhile wsChar).reverse.dropWhile wsChar).reverse)

/-- Python `str.lower()` (ASCII fragment). -/
def pyLower (s : String) : String := String.mk (s.data.map Char.toLower)

/-- Python `str.upper()` (ASCII fragment). -/
def pyUpper (s : String) : String := String.mk (s.data.map Char.toUpper)

/-- Python `str.endswith`. -/
def pyEndsWith (s p : String) : Bool := p.data.isSuffixOf s.data

/-- Python `str.startswith`. -/
def pyStartsWith (s p : String) : Bool := p.data.isPrefixOf s.data

/-- Boolean membership test for string lists (Python `in`). -/
def memStr (x : String) : List String → Bool
  | [] => false
  | y :: ys => x == y || memStr x ys

/-- Drop a leading run of whitespace (regex `\s*`, consumed greedily). -/
def dropWs (l : List Char) : List Char := l.dropWhile wsChar

/-- Lexicographic comparison by code point, the Python `<` on strings. -/
def strLtL : List Char → List Char → Bool
  | [], [] => false
  | [], _ :: _ => true
  | _ :: _, [] => false
  | a :: as, b :: bs =>
    if a.toNat < b.toNat then true
    else if b.toNat < a.toNat then false
    else strLtL as bs

def strLt (s t : String) : Bool := strLtL s.data t.data

/-- Split a character list at the first `>`: returns the characters before
it and the characters after it. -/
def splitAtGt : List Char → Option (List Char × List Char)
  | [] => none
  | c :: rest =>
    if c = '>' then some ([], rest)
    else (splitAtGt rest).map (fun p => (c :: p.1, p.2))

theorem splitAtGt_rest_length :
    ∀ {l mid rest : List Char}, splitAtGt l = some (mid, rest) →
      rest.length < l.length := by
  intro l
  induction l with
  | nil => intro mid rest h; simp [splitAtGt] at h
  | cons c cs ih =>
    intro mid rest h
    by_cases hc : c = '>'
    · rw [splitAtGt, if_pos hc] at h
      cases h
      simp
    · rw [splitAtGt, if_neg hc] at h
      match hp : splitAtGt cs with
      | none => rw [hp] at h; simp at h
      | some (a, b) =>
        rw [hp] at h
        simp at h
        have hb := ih hp
        obtain ⟨hmid, hrest⟩ := h
        subst hrest
        simp only [List.length_cons]
        omega

/-- `re.sub(r"<[^>]+>", "", ·)`: removes every span `<...>` holding at
least one character that is not `>`.  The fuel argument is structural
bookkeeping only: every step consumes at least one character, so
`l.length` fuel always suffices (see `stripAngleL`). -/
def stripAngleGo : Nat → List Char → List Char
  | 0, l => l
  | _ + 1, [] => []
  | fuel + 1, c :: rest =>
    if c = '<' then
      match splitAtGt rest with
      | some (mid, after) =>
        if mid = [] then '<' :: stripAngleGo fuel rest
        else stripAngleGo fuel after
      | none => '<' :: stripAngleGo fuel rest
    else c :: stripAngleGo fuel rest

def stripAngleL (l : List Char) : List Char := stripAngleGo l.length l

/-- Python `str.replace(pat, rep)` with a nonempty pattern: replaces all
non-overlapping occurrences from the left.  Fuel as in `stripAngleGo`. -/
def replaceGo (pat rep : List Char) : Nat → List Char → List Char
  | 0, l => l
  | _ + 1, [] => []
  | fuel + 1, c :: rest =>
    if pat ≠ [] ∧ pat.isPrefixOf (c :: rest) then
      rep ++ replaceGo pat rep fuel (rest.drop (pat.length - 1))
    else c :: replaceGo pat rep fuel rest

def replaceAllL (pat rep : List Char) (l : List Char) : List Char :=
  replaceGo pat rep l.length l

/-- Substring test (Python `in` on strings). -/
def hasSubstr (s pat : String) : Bool := go pat.data s.data
  where go (p : List Char) : List Char → Bool
    | [] => p.isPrefixOf []
    | c :: rest => p.isPrefixOf (c :: rest) || go p rest

/-!
## Type signature parser

Embedding of `_parse_map`, `_parse_object`, `_parse_enum` and
`parse_field_type` (`tools/draft_generator.py` lines 47–115).  The map
regex is
`map\s*\(\s*key:\s*(?P<key>.+?)\s*,\s*value:\s*(?P<value>.+?)\s*\)$`
searched leftmost, with `.` not matching newlines; both captured groups
are `.strip()`-ed by the caller, which makes the result insensitive to
how the engine splits whitespace between `\s*` and the non-greedy
groups, except when a group would be entirely whitespace (then the
stripped group is empty).  The scanners below realise exactly this
observable behaviour: group characters are accumulated one at a time
(never `\n`), shortest first, from start positions that skip a maximal
run of whitespace first (longer runs preferred, as the engine prefers a
longer `\s*`).
-/

/-- Strip a literal prefix, or fail. -/
def stripPre (pat : List Char) (l : List Char) : Option (List Char) :=
  if pat.isPrefixOf l then some (l.drop pat.length) else none

/-- Match `\s*,` at the front and return the characters after the comma. -/
def tailAfterComma (l : List Char) : Option (List Char) :=
  match dropWs l with
  | ',' :: rest => some rest
  | _ => none

/-- Scan for the non-greedy `value` group: the shortest nonempty
newline-free prefix whose remainder is `\s*\)` at the very end. -/
def valueScan (acc : List Char) : List Char → Option (List Char)
  | [] => none
  | c :: rest =>
    if c = '\n' then none
    else if dropWs rest = [')'] then some (acc ++ [c])
    else valueScan (acc ++ [c]) rest

/-- Try the `value` group from each start position obtained by skipping
`w` whitespace characters, `w` from the maximal run downwards. -/
def valueFrom (t : List Char) : Option (List Char) :=
  go t ((t.takeWhile wsChar).length)
  where go (t : List Char) : Nat → Option (List Char)
    | 0 => valueScan [] t
    | w + 1 =>
      match valueScan [] (t.drop (w + 1)) with
      | some v => some v
      | none => go t w

/-- Match `\s*value:\s*(.+?)\s*\)$` against `l` (the text after the
comma), returning the stripped `value` group. -/
def matchValuePart (l : List Char) : Option String :=
  match stripPre "value:".data (dropWs l) with
  | none => none
  | some t =>
    match valueFrom t with
    | some v => some (pyStrip (String.mk v))
    | none =>
      -- Edge: a group consisting only of whitespace; the engine then
      -- captures a whitespace character, which strips to the empty
      -- string.  This needs at least one whitespace before the `)`.
      if dropWs t = [')'] && t ≠ [')'] && t ≠ [] then some "" else none

/-- Scan for the non-greedy `key` group: shortest nonempty newline-free
prefix followed by `\s*,` such that the rest of the pattern matches
after the comma. -/
def keyScan (acc : List Char) : List Char → Option (List Char × String)
  | [] => none
  | c :: rest =>
    if c = '\n' then none
    else
      match tailAfterComma rest with
      | some afterComma =>
        match matchValuePart afterComma with
        | some v => some (acc ++ [c], v)
        | none => keyScan (acc ++ [c]) rest
      | none => keyScan (acc ++ [c]) rest

/-- Try the `key` group from each start position obtained by skipping
`w` whitespace characters, `w` maximal first. -/
def keyFrom (t : List Char) : Option (List Char × String)  :=
  go t ((t.takeWhile wsChar).length)
  where go (t : List Char) : Nat → Option (List Char × String)
    | 0 => keyScan [] t
    | w + 1 =>
      match keyScan [] (t.drop (w + 1)) with
      | some kv => some kv
      | none => go t w

/-- Match the full map pattern at the head of `l`. -/
def mapMatchAt (l : List Char) : Option (String × String) :=
  match stripPre "map".data l with
  | none => none
  | some l₁ =>
    match stripPre "(".data (dropWs l₁) with
    | none => none
    | some l₂ =>
      match stripPre "key:".data (dropWs l₂) with
      | none => none
      | some l₃ =>
        match keyFrom l₃ with
        | some (k, v) => some (pyStrip (String.mk k), v)
        | none =>
          -- Edge: key group entirely whitespace before the comma.
          match tailAfterComma l₃ with
          | some afterComma =>
            if (l₃.takeWhile wsChar).length ≥ 1 then
              match matchValuePart afterComma with
              | some v => some ("", v)
              | none => none
            else none
          | none => none

/-- `_parse_map`: leftmost search of the map pattern. -/
def parse_map (s : String) : Option (String × String) := go s.data
  where go : List Char → Option (String × String)
    | [] => none
    | c :: rest =>
      match mapMatchAt (c :: rest) with
      | some r => some r
      | none => go rest

/-- Match `kw\s*\(\s*([^)]+)\s*\)$` at the head of `l`, returning the
stripped inner group. -/
def objMatchAt (kw : List Char) (l : List Char) : Option String :=
  match stripPre kw l with
  | none => none
  | some l₁ =>
    match stripPre "(".data (dropWs l₁) with
    | none => none
    | some l₂ =>
      let r := l₂.takeWhile (fun c => c ≠ ')')
      match l₂.drop r.length with
      | [')'] => if r = [] then none else some (pyStrip (String.mk r))
      | _ => none

/-- Leftmost search of `kw\s*\(\s*([^)]+)\s*\)$`; embeds `_parse_object`
(`kw = "object"`) and `_parse_enum` (`kw = "enum"`). -/
def searchWrapped (kw : String) (s : String) : Option String := go s.data
  where go : List Char → Option String
    | [] => none
    | c :: rest =>
      match objMatchAt kw.data (c :: rest) with
      | some r => some r
      | none => go rest

def parse_object (s : String) : Option String := searchWrapped "object" s

def parse_enum (s : String) : Option String := searchWrapped "enum" s

/-- Result of `parse_field_type` (the Python function returns this
6-tuple). -/
structure ParsedType where
  type_text : String
  is_collection : Bool
  is_map : Bool
  map_key_type : Option String
  map_value_type : Option String
  is_enum : Bool
deriving DecidableEq, Repr

/-- `parse_field_type` (`tools/draft_generator.py` lines 80–115):
strip angle-bracket spans, detect and strip the collection markers,
detect the map form (object-unwrapping its value), object-unwrap the
working text, then enum-unwrap the working text. -/
def parse_field_type (t : String) : ParsedType :=
  let t₁ := pyStrip (String.mk (stripAngleL t.data))
  let step₂ :=
    if pyEndsWith t₁ "[]" || pyStartsWith t₁ "array of" then
      (true, pyStrip (String.mk (replaceAllL "array of".data []
        (replaceAllL "[]".data [] t₁.data))))
    else (false, t₁)
  let is_collection := step₂.1
  let t₂ := step₂.2
  let step₃ :=
    match parse_map t₂ with
    | some (k, v) =>
      let v' := match parse_object v with
        | some inner => inner
        | none => v
      (true, some k, some v')
    | none => (false, none, none)
  let t₃ := match parse_object t₂ with
    | some inner => inner
    | none => t₂
  let step₅ := match parse_enum t₃ with
    | some inner => (true, inner)
    | none => (false, t₃)
  { type_text := step₅.2
    is_collection := is_collection
    is_map := step₃.1
    map_key_type := step₃.2.1
    map_value_type := step₃.2.2
    is_enum := step₅.1 }

/-!
## Data model

`Field` and `ResourceModel` (`tools/draft_generator.py` lines 13–44).
-/

structure Field where
  name : String
  type_name : String
  description : String
  is_collection : Bool
  is_map : Bool
  map_key_type : Option String
  map_value_type : Option String
  is_enum : Bool
deriving DecidableEq, Repr

structure ResourceModel where
  name : String
  description : String
  fields : List Field
  url : String
deriving DecidableEq, Repr

/-- An enum-row field as built from an `ENUM_VALUES` table row
(lines 170–181): the literal cell text is `.strip()`-ed and has the
`<wbr>` marker removed, and becomes the field name;
`type_name` is `"str"` and the field is flagged as an enum literal. -/
def enumRowField (rawLiteral desc : String) : Field :=
  { name := String.mk (replaceAllL "<wbr>".data [] (pyStrip rawLiteral).data)
    type_name := "str"
    description := desc
    is_collection := false
    is_map := false
    map_key_type := none
    map_value_type := none
    is_enum := true }

/-!
## Synthetic model completer

Lines 130–138 collect the table-of-contents ids matching the heuristic
(ends with `"SuggestionState"`, or contains `"Type"`); lines 235–240
append an empty placeholder model for every such id with no extracted
model of that name.  The Python `empty_object_types` is a set; the fold
below checks freshness against the accumulator, so duplicated ids are
handled exactly like set membership.
-/

def heuristicId (i : String) : Bool :=
  pyEndsWith i "SuggestionState" || hasSubstr i "Type"

def docsUrl (t : String) : String :=
  "https://developers.google.com/workspace/docs/api/reference/rest/v1/documents?hl=en#" ++ t

def completeEmptyTypes (tocIds : List String) (models : List ResourceModel) :
    List ResourceModel :=
  (tocIds.filter heuristicId).foldl (fun acc t =>
    if acc.any (fun m => m.name == t) then acc
    else acc ++ [{ name := t, description := "This type has no fields.",
                   fields := [], url := docsUrl t }]) models

/-!
## Dependency resolver

`generate_pydantic_models` (lines 244–316): classification of models as
enum-kind / record-kind, the name-keyed dependency sets, and the
emission loop.  The loop below returns the sequence of names processed
by the Python `while remaining_models` loop; the emitted model list is
that sequence mapped through the `model_dict` lookup, exactly as the
Python interleaves `model_dict.get` and `result.append` per processed
name.
-/

/-- Classification at partition time (lines 257–261). -/
def isEnumKind (m : ResourceModel) : Bool :=
  pyEndsWith m.name "Type" ||
    (!m.fields.isEmpty && m.fields.any (fun f => f.is_enum) && m.fields.length == 1)

/-- The branch test of `generate_model_code` (lines 339–341); it lacks
the `model.fields and` guard but agrees with `isEnumKind` because
`any` on an empty list is false. -/
def rendersAsEnum (m : ResourceModel) : Bool :=
  pyEndsWith m.name "Type" ||
    (m.fields.any (fun f => f.is_enum) && m.fields.length == 1)

def enumModels (models : List ResourceModel) : List ResourceModel :=
  models.filter isEnumKind

def regularModels (models : List ResourceModel) : List ResourceModel :=
  models.filter (fun m => !isEnumKind m)

def modelNames (models : List ResourceModel) : List String :=
  models.map (fun m => m.name)

def enumNames (models : List ResourceModel) : List String :=
  modelNames (enumModels models)

/-- A name is a dependency target when it is a model name and not an
enum-kind model name (lines 270–280). -/
def isDep (models : List ResourceModel) (d : String) : Bool :=
  memStr d (modelNames models) && !memStr d (enumNames models)

/-- The dependency set contributed by the fields of one model
(lines 269–280); duplicates are irrelevant because only membership is
ever consulted. -/
def modelDeps (models : List ResourceModel) (m : ResourceModel) : List String :=
  m.fields.foldr (fun f acc =>
    (if isDep models f.type_name then [f.type_name] else []) ++
    (if f.is_map then
      match f.map_value_type with
      | some v => if isDep models v then [v] else []
      | none => []
     else []) ++ acc) []

/-- Python dict construction `{m.name: m for m in models}`: the last
model with a given name wins. -/
def lookupLast (models : List ResourceModel) (n : String) : Option ResourceModel :=
  models.foldl (fun acc m => if m.name == n then some m else acc) none

/-- `dependencies.get(name, set())`: the dict is keyed over regular
models, later entries overwriting earlier ones. -/
def depsOfName (models : List ResourceModel) (n : String) : List String :=
  match lookupLast (regularModels models) n with
  | some m => modelDeps models m
  | none => []

/-- Insertion into an ascending duplicate-free string list; folding it
over a list of names yields exactly `sorted(set(names))`. -/
def insertStr (s : String) : List String → List String
  | [] => [s]
  | x :: xs =>
    if strLt x s then x :: insertStr s xs
    else if x = s then x :: xs
    else s :: x :: xs

def initRemaining (models : List ResourceModel) : List String :=
  (regularModels models).foldl (fun acc m => insertStr m.name acc) []

/-- Stable insertion preserving documentation order among equal names;
folding it from the right is Python `sorted(·, key=name)`. -/
def insertByName (m : ResourceModel) : List ResourceModel → List ResourceModel
  | [] => [m]
  | x :: xs =>
    if strLt x.name m.name then x :: insertByName m xs
    else m :: x :: xs

def sortByName (l : List ResourceModel) : List ResourceModel :=
  l.foldr insertByName []

/-- One `for model_name in sorted(list(remaining_models))` pass
(lines 298–307): the names whose dependency set is satisfied at the
moment they are visited, the `added_models` set growing *during* the
pass. -/
def firedNames (deps : String → List String) :
    List String → List String → List String
  | [], _ => []
  | n :: rest, added =>
    if (deps n).all (fun d => memStr d added) then
      n :: firedNames deps rest (n :: added)
    else firedNames deps rest added

/-- The `while remaining_models` loop (lines 296–315).  `remaining` is
kept as an ascending duplicate-free list, so the pass snapshot
`sorted(list(remaining_models))` is `remaining` itself and the forced
cycle break `sorted(list(remaining_models))[0]` is its head.  Python
terminates because every iteration removes at least one name; here the
fuel, instantiated with `remaining.length`, bounds the iterations for
the same reason. -/
def resolveLoop (deps : String → List String) :
    Nat → List String → List String → List String
  | 0, _, _ => []
  | _ + 1, [], _ => []
  | fuel + 1, n :: rest, added =>
    let fired := firedNames deps (n :: rest) added
    if fired.isEmpty then
      n :: resolveLoop deps fuel rest (n :: added)
    else
      fired ++ resolveLoop deps fuel
        ((n :: rest).filter (fun x => !memStr x fired)) (fired.reverse ++ added)

def recordPhaseNames (models : List ResourceModel) : List String :=
  resolveLoop (depsOfName models) (initRemaining models).length
    (initRemaining models) (enumNames models)

def recordPhaseModels (models : List ResourceModel) : List ResourceModel :=
  (recordPhaseNames models).flatMap (fun n => (lookupLast models n).toList)

/-- The sequence of models handed to `generate_model_code`, in output
order: sorted enum-kind models first (line 290), then the record-phase
emissions. -/
def emissionList (models : List ResourceModel) : List ResourceModel :=
  sortByName (enumModels models) ++ recordPhaseModels models

/-!
## Code emitter

`get_python_type` (lines 384–407) and `generate_model_code`
(lines 319–381).
-/

def scalarPy (s : String) : Option String :=
  if s = "string" then some "str"
  else if s = "integer" then some "int"
  else if s = "number" then some "float"
  else if s = "boolean" then some "bool"
  else none

def get_python_type (f : Field) (model_names : List String) : String :=
  if f.is_enum then "Optional[" ++ f.type_name ++ "]"
  else
    let base₀ := (scalarPy (pyLower f.type_name)).getD f.type_name
    let base := if memStr f.type_name model_names then f.type_name else base₀
    if f.is_collection then "list[" ++ base ++ "]"
    else if f.is_map then
      let k := f.map_key_type.getD ""
      let keyTy := (scalarPy (pyLower k)).getD k
      let v := f.map_value_type.getD ""
      let valTy := if memStr v model_names then v
                   else (scalarPy (pyLower v)).getD "Any"
      "dict[" ++ keyTy ++ ", " ++ valTy ++ "]"
    else "Optional[" ++ base ++ "]"

/-- Description chunks of 100 characters (lines 366–368); an empty
description yields no chunks.  Fuel as in `stripAngleGo`. -/
def chunkGo : Nat → List Char → List String
  | 0, _ => []
  | _ + 1, [] => []
  | fuel + 1, c :: cs =>
    String.mk ((c :: cs).take 100) :: chunkGo fuel ((c :: cs).drop 100)

def chunk100 (l : List Char) : List String := chunkGo l.length l

/-- One record field line (lines 363–379). -/
def fieldLine (model_names : List String) (f : Field) : String :=
  let ty := get_python_type f model_names
  let desc := String.mk (replaceAllL "\"".data "\\\"".data f.description.data)
  let chunks := chunk100 desc.data
  if chunks.length = 1 then
    "    " ++ f.name ++ ": " ++ ty ++ " = Field(description=\"" ++ desc ++ "\")"
  else
    "    " ++ f.name ++ ": " ++ ty ++ " = Field(\n        description=(\n" ++
    String.join (chunks.map (fun c => "            \"" ++ c ++ "\"\n")) ++
    "        )\n    )"

/-- One enum constant line (lines 351–355): identifier is the
uppercased literal, the underlying value is the literal itself. -/
def enumFieldLine (f : Field) : String :=
  "    " ++ pyUpper f.name ++ " = \"" ++ f.name ++ "\"  # " ++ f.description

def enumHeaderLines (m : ResourceModel) : List String :=
  ["class " ++ m.name ++ "(str, Enum):", "    \"\"\"", "    " ++ m.description]
  ++ (if m.url = "" then [] else ["    " ++ m.url])
  ++ ["    \"\"\""]

def recordHeaderLines (m : ResourceModel) : List String :=
  ["class " ++ m.name ++ "(BaseModel):", "    \"\"\"", "    " ++ m.description]
  ++ (if m.url = "" then [] else ["    " ++ m.url])
  ++ ["    \"\"\"",
      "    model_config = ConfigDict(",
      "        populate_by_name=True,",
      "        alias_generator=alias_generators.to_camel,",
      "    )",
      ""]

/-- The line list built by `generate_model_code`. -/
def modelCodeLines (m : ResourceModel) (allModels : List ResourceModel) :
    List String :=
  if rendersAsEnum m then
    enumHeaderLines m ++
    (if m.fields.isEmpty then
      ["    # No enum values defined in the API documentation",
       "    UNSPECIFIED = \"UNSPECIFIED\""]
     else m.fields.map enumFieldLine) ++ [""]
  else
    recordHeaderLines m ++
    (if m.fields.isEmpty then ["    pass"]
     else m.fields.map (fieldLine (modelNames allModels))) ++ [""]

def generate_model_code (m : ResourceModel) (allModels : List ResourceModel) :
    String :=
  String.intercalate "\n" (modelCodeLines m allModels)

def headerPrelude : List String :=
  ["from __future__ import annotations", "", "from enum import Enum",
   "from typing import Any, Optional, Union",
   "from pydantic import BaseModel, ConfigDict, Field, alias_generators",
   "", ""]

def generate_pydantic_models (models : List ResourceModel) : String :=
  String.intercalate "\n"
    (headerPrelude ++ (emissionList models).map (fun m => generate_model_code m models))

/-!
## Specification-side ordering algorithms

`roundEmit` follows the words of spec §4.4 steps 3–4 as stated: the
ready set is computed once at the start of a round from the models
emitted in *previous* rounds, the whole set is emitted in ascending
name order, and an empty round forces the smallest remaining name.
`seqEmit` follows the amended wording: a round is a single scan of the
remaining names in ascending order in which a name is emitted as soon
as its dependencies are satisfied *at the moment it is visited*, so a
name freed earlier in the same scan can be emitted later in that scan.
-/

def scanOnce (deps : String → List String) (emitted : List String) :
    List String → List String × List String
  | [] => ([], [])
  | n :: rest =>
    if (deps n).all (fun d => memStr d emitted) then
      let p := scanOnce deps (n :: emitted) rest
      (n :: p.1, p.2)
    else
      let p := scanOnce deps emitted rest
      (p.1, n :: p.2)

def seqEmit (deps : String → List String) :
    Nat → List String → List String → List String
  | 0, _, _ => []
  | _ + 1, [], _ => []
  | fuel + 1, n :: rest, emitted =>
    let p := scanOnce deps emitted (n :: rest)
    if p.1.isEmpty then n :: seqEmit deps fuel rest (n :: emitted)
    else p.1 ++ seqEmit deps fuel p.2 (p.1 ++ emitted)

def roundReady (deps : String → List String) (emitted remaining : List String) :
    List String :=
  remaining.filter (fun n => (deps n).all (fun d => memStr d emitted))

def roundEmit (deps : String → List String) :
    Nat → List String → List String → List String
  | 0, _, _ => []
  | _ + 1, [], _ => []
  | fuel + 1, n :: rest, emitted =>
    let r := roundReady deps emitted (n :: rest)
    if r.isEmpty then n :: roundEmit deps fuel rest (n :: emitted)
    else r ++ roundEmit deps fuel
      ((n :: rest).filter (fun x => !memStr x r)) (r ++ emitted)

/-- Occurrence count of a name in a name list. -/
def countStr (x : String) : List String → Nat
  | [] => 0
  | y :: ys => (if y = x then 1 else 0) + countStr x ys

/-!
## Concrete inputs used by the claim theorems
-/

/-- A plain reference field: not a collection, not a map, not an enum. -/
def fieldRef (n t : String) : Field :=
  { name := n, type_name := t, description := "", is_collection := false,
    is_map := false, map_key_type := none, map_value_type := none,
    is_enum := false }

/-- `A` free, `B` depends on `A`, `C` free; all record-kind. -/
def c2Models : List ResourceModel :=
  [{ name := "A", description := "", fields := [], url := "" },
   { name := "B", description := "", fields := [fieldRef "a" "A"], url := "" },
   { name := "C", description := "", fields := [], url := "" }]

/-- Two distinct enum-kind models sharing the name `AType`, plus a
record model referencing that name. -/
def c4Models : List ResourceModel :=
  [{ name := "AType", description := "", fields := [], url := "" },
   { name := "AType", description := "duplicated", fields := [], url := "" },
   { name := "R", description := "", fields := [fieldRef "a" "AType"], url := "" }]

def c4WitModels : List ResourceModel :=
  [{ name := "R", description := "", fields := [fieldRef "s" "S"], url := "" },
   { name := "S", description := "", fields := [], url := "" }]

/-- Two distinct enum-kind models sharing the name `SType`. -/
def c5Models : List ResourceModel :=
  [{ name := "SType", description := "first", fields := [], url := "" },
   { name := "SType", description := "second", fields := [], url := "" }]

def c5WitModels : List ResourceModel :=
  [{ name := "M1", description := "", fields := [], url := "" },
   { name := "M2", description := "", fields := [], url := "" }]

/-- The placeholder the completer synthesizes for the id
`FooSuggestionState`. -/
def c6m : ResourceModel :=
  { name := "FooSuggestionState", description := "This type has no fields.",
    fields := [], url := docsUrl "FooSuggestionState" }

/-- A record model and an enum-kind model sharing the name `zz` (the
enum one later in the list), plus a record `aa`: the record-phase
lookup then re-emits the enum model after `aa`. -/
def c7Models : List ResourceModel :=
  [{ name := "zz", description := "", fields := [], url := "" },
   { name := "zz", description := "",
     fields := [{ name := "VAL", type_name := "str", description := "",
                  is_collection := false, is_map := false, map_key_type := none,
                  map_value_type := none, is_enum := true }], url := "" },
   { name := "aa", description := "", fields := [], url := "" }]

def c7WitModels : List ResourceModel :=
  [{ name := "B", description := "", fields := [], url := "" },
   { name := "AType", description := "", fields := [], url := "" }]

/-- A cyclic record pair: `A` references `B` and `B` references `A`. -/
def c8Models : List ResourceModel :=
  [{ name := "A", description := "", fields := [fieldRef "b" "B"], url := "" },
   { name := "B", description := "", fields := [fieldRef "a" "A"], url := "" }]

/-- An enum-kind model holding the literal `range` read from a
documentation row. -/
def c9Model : ResourceModel :=
  { name := "StatusType", description := "",
    fields := [enumRowField "range" "doc"], url := "" }

/-- An enum-rendered model with no documented values. -/
def c10Model : ResourceModel :=
  { name := "FooType", description := "x", fields := [], url := "" }

/-!
## Helper lemmas
-/

theorem boolEqOfIff {a b : Bool} (h : a = true ↔ b = true) : a = b := by
  cases a <;> cases b <;> simp_all

theorem memStr_iff {x : String} : ∀ {l : List String}, memStr x l = true ↔ x ∈ l := by
  intro l
  induction l with
  | nil => simp [memStr]
  | cons y ys ih => simp [memStr, ih]

theorem memStr_eq_false {x : String} {l : List String} (h : x ∉ l) :
    memStr x l = false := by
  cases hm : memStr x l with
  | false => rfl
  | true => exact absurd (memStr_iff.mp hm) h

theorem memStr_append {x : String} : ∀ {l₁ l₂ : List String},
    memStr x (l₁ ++ l₂) = (memStr x l₁ || memStr x l₂) := by
  intro l₁ l₂
  induction l₁ with
  | nil => simp [memStr]
  | cons y ys ih => simp [memStr, ih, Bool.or_assoc]

theorem memStr_reverse {x : String} {l : List String} :
    memStr x l.reverse = memStr x l := by
  apply boolEqOfIff
  rw [memStr_iff, memStr_iff, List.mem_reverse]

theorem all_memStr_congr {deps a₁ a₂ : List String}
    (h : ∀ x, memStr x a₁ = memStr x a₂) :
    (deps.all fun d => memStr d a₁) = (deps.all fun d => memStr d a₂) := by
  induction deps with
  | nil => rfl
  | cons d ds ih => simp only [List.all_cons, h d, ih]

theorem strLtL_irrefl : ∀ (a : List Char), strLtL a a = false := by
  intro a
  induction a with
  | nil => rfl
  | cons c cs ih => simp [strLtL, ih]

theorem strLtL_asymm : ∀ {a b : List Char}, strLtL a b = true → strLtL b a = false := by
  intro a
  induction a with
  | nil =>
    intro b h
    match b with
    | [] => simp [strLtL] at h
    | _ :: _ => simp [strLtL]
  | cons c cs ih =>
    intro b h
    match b with
    | [] => simp [strLtL] at h
    | d :: ds =>
      rw [strLtL] at h ⊢
      by_cases h1 : c.toNat < d.toNat
      · rw [if_neg (by omega : ¬ d.toNat < c.toNat), if_pos h1]
      · by_cases h2 : d.toNat < c.toNat
        · rw [if_neg h1, if_pos h2] at h
          simp at h
        · rw [if_neg h1, if_neg h2] at h
          rw [if_neg h2, if_neg h1]
          exact ih h

theorem strLtL_trans : ∀ {a b c : List Char},
    strLtL a b = true → strLtL b c = true → strLtL a c = true := by
  intro a
  induction a with
  | nil =>
    intro b c hab hbc
    match b, c with
    | [], _ => simp [strLtL] at hab
    | _ :: _, [] => simp [strLtL] at hbc
    | _ :: _, _ :: _ => simp [strLtL]
  | cons x xs ih =>
    intro b c hab hbc
    match b, c with
    | [], _ => simp [strLtL] at hab
    | _ :: _, [] => simp [strLtL] at hbc
    | y :: ys, z :: zs =>
      rw [strLtL] at hab hbc ⊢
      by_cases h1 : x.toNat < y.toNat
      · by_cases h2 : y.toNat < z.toNat
        · rw [if_pos (by omega : x.toNat < z.toNat)]
        · by_cases h4 : z.toNat < y.toNat
          · rw [if_neg h2, if_pos h4] at hbc
            simp at hbc
          · rw [if_pos (by omega : x.toNat < z.toNat)]
      · by_cases h3 : y.toNat < x.toNat
        · rw [if_neg h1, if_pos h3] at hab
          simp at hab
        · rw [if_neg h1, if_neg h3] at hab
          by_cases h2 : y.toNat < z.toNat
          · rw [if_pos (by omega : x.toNat < z.toNat)]
          · by_cases h4 : z.toNat < y.toNat
            · rw [if_neg h2, if_pos h4] at hbc
              simp at hbc
            · rw [if_neg h2, if_neg h4] at hbc
              rw [if_neg (by omega : ¬ x.toNat < z.toNat),
                  if_neg (by omega : ¬ z.toNat < x.toNat)]
              exact ih hab hbc

theorem charToNatInj {a b : Char} (h : a.toNat = b.toNat) : a = b := by
  apply Char.ext
  exact UInt32.ext h

theorem strLtL_eq_of_not : ∀ {a b : List Char},
    strLtL a b = false → strLtL b a = false → a = b := by
  intro a
  induction a with
  | nil =>
    intro b hab _
    match b with
    | [] => rfl
    | _ :: _ => simp [strLtL] at hab
  | cons x xs ih =>
    intro b hab hba
    match b with
    | [] => simp [strLtL] at hba
    | y :: ys =>
      by_cases h1 : x.toNat < y.toNat
      · simp [strLtL, h1] at hab
      · by_cases h2 : y.toNat < x.toNat
        · simp [strLtL, h2] at hba
        · have hxy : x = y := charToNatInj (by omega)
          simp [strLtL, h1, h2] at hab hba
          exact hxy ▸ congrArg (x :: ·) (ih hab hba)

theorem stringDataInj {a b : String} (h : a.data = b.data) : a = b :=
  congrArg String.mk h

theorem strLt_asymm {a b : String} (h : strLt a b = true) : strLt b a = false :=
  strLtL_asymm h

theorem strLt_trans {a b c : String} (h1 : strLt a b = true) (h2 : strLt b c = true) :
    strLt a c = true :=
  strLtL_trans h1 h2

theorem strLt_eq_of_not {a b : String} (h1 : strLt a b = false)
    (h2 : strLt b a = false) : a = b :=
  stringDataInj (strLtL_eq_of_not h1 h2)

theorem strLt_irrefl (a : String) : strLt a a = false := strLtL_irrefl a.data

theorem strLt_ne {a b : String} (h : strLt a b = true) : a ≠ b := by
  intro he
  rw [he, strLt_irrefl] at h
  exact Bool.false_ne_true h

/-- Negated comparisons compose: from `b ≤ a` and `c ≤ b` follows
`c ≤ a` (`strLt x y = false` reads `y ≤ x`). -/
theorem strLt_le_trans {a b c : String} (h1 : strLt b a = false)
    (h2 : strLt c b = false) : strLt c a = false := by
  cases hca : strLt c a with
  | false => rfl
  | true =>
    cases hab : strLt a b with
    | true =>
      have := strLt_trans hca hab
      rw [h2] at this
      exact this.symm
    | false =>
      have : a = b := strLt_eq_of_not hab h1
      rw [this] at hca
      rw [h2] at hca
      exact hca.symm

/-!
## Resolver lemmas
-/

theorem firedNames_sublist (deps : String → List String) :
    ∀ (l added : List String), List.Sublist (firedNames deps l added) l := by
  intro l
  induction l with
  | nil => intro added; simp [firedNames]
  | cons n rest ih =>
    intro added
    rw [firedNames]
    by_cases c : ((deps n).all fun d => memStr d added) = true
    · rw [if_pos c]
      exact (ih (n :: added)).cons₂ n
    · rw [if_neg c]
      exact (ih added).cons n

theorem firedNames_congr (deps : String → List String) :
    ∀ (l a₁ a₂ : List String), (∀ x, memStr x a₁ = memStr x a₂) →
      firedNames deps l a₁ = firedNames deps l a₂ := by
  intro l
  induction l with
  | nil => intro a₁ a₂ _; rfl
  | cons n rest ih =>
    intro a₁ a₂ h
    rw [firedNames, firedNames, all_memStr_congr h]
    by_cases c : ((deps n).all fun d => memStr d a₂) = true
    · rw [if_pos c, if_pos c]
      rw [ih (n :: a₁) (n :: a₂) (fun x => by simp [memStr, h x])]
    · rw [if_neg c, if_neg c]
      exact ih a₁ a₂ h

theorem filter_memStr_of_sublist :
    ∀ {l₁ l₂ : List String}, List.Sublist l₁ l₂ → l₂.Nodup →
      l₂.filter (fun x => memStr x l₁) = l₁ := by
  intro l₁ l₂ h
  induction h with
  | slnil => intro _; rfl
  | cons b hs ih =>
    intro hn
    rename_i p q
    have hb : b ∉ p := fun hm => (List.nodup_cons.mp hn).1 (hs.subset hm)
    rw [List.filter_cons_of_neg (by simp [memStr_eq_false hb])]
    exact ih (List.nodup_cons.mp hn).2
  | cons₂ a hs ih =>
    intro hn
    rename_i p q
    have ha : a ∉ q := (List.nodup_cons.mp hn).1
    have h1 : memStr a (a :: p) = true := memStr_iff.mpr (List.mem_cons_self a p)
    rw [List.filter_cons_of_pos (by exact h1)]
    have h2 : q.filter (fun x => memStr x (a :: p)) = q.filter (fun x => memStr x p) := by
      apply List.filter_congr
      intro x hx
      have hxa : x ≠ a := fun he => ha (he ▸ hx)
      simp [memStr, hxa]
    rw [h2, ih (List.nodup_cons.mp hn).2]

theorem resolveLoop_perm (deps : String → List String) :
    ∀ (fuel : Nat) (remaining added : List String),
      remaining.Nodup → remaining.length ≤ fuel →
      (resolveLoop deps fuel remaining added).Perm remaining := by
  intro fuel
  induction fuel with
  | zero =>
    intro remaining added _ hl
    have : remaining = [] := List.eq_nil_of_length_eq_zero (Nat.le_zero.mp hl)
    subst this
    simp [resolveLoop]
  | succ fuel ih =>
    intro remaining added hn hl
    match remaining with
    | [] => simp [resolveLoop]
    | n :: rest =>
      rw [resolveLoop]
      by_cases hfi : (firedNames deps (n :: rest) added).isEmpty = true
      · rw [if_pos hfi]
        exact ((ih rest (n :: added) (List.nodup_cons.mp hn).2
          (by simp at hl; omega)).cons n)
      · rw [if_neg hfi]
        have hsub : List.Sublist (firedNames deps (n :: rest) added) (n :: rest) :=
          firedNames_sublist deps (n :: rest) added
        have hfil : (n :: rest).filter
            (fun x => memStr x (firedNames deps (n :: rest) added)) =
            firedNames deps (n :: rest) added :=
          filter_memStr_of_sublist hsub hn
        have hperm₀ := List.filter_append_perm
          (fun x => memStr x (firedNames deps (n :: rest) added)) (n :: rest)
        rw [hfil] at hperm₀
        have hne : firedNames deps (n :: rest) added ≠ [] := by
          intro he
          rw [he] at hfi
          exact hfi rfl
        have hlen : ((n :: rest).filter
            (fun x => !memStr x (firedNames deps (n :: rest) added))).length <
            (n :: rest).length := by
          have h1 := hperm₀.length_eq
          rw [List.length_append] at h1
          have h2 : 0 < (firedNames deps (n :: rest) added).length :=
            List.length_pos.mpr hne
          omega
        have hnf : ((n :: rest).filter
            (fun x => !memStr x (firedNames deps (n :: rest) added))).Nodup :=
          hn.filter _
        have hrec := ih _ ((firedNames deps (n :: rest) added).reverse ++ added) hnf
          (by simp only [List.length_cons] at hl hlen ⊢; omega)
        exact ((hrec.append_left (firedNames deps (n :: rest) added)).trans hperm₀)

theorem scanOnce_fst (deps : String → List String) :
    ∀ (l em : List String), (scanOnce deps em l).1 = firedNames deps l em := by
  intro l
  induction l with
  | nil => intro em; rfl
  | cons n rest ih =>
    intro em
    rw [scanOnce, firedNames]
    by_cases c : ((deps n).all fun d => memStr d em) = true
    · rw [if_pos c, if_pos c]
      simp [ih (n :: em)]
    · rw [if_neg c, if_neg c]
      simp [ih em]

theorem scanOnce_snd (deps : String → List String) :
    ∀ (l em : List String), l.Nodup →
      (scanOnce deps em l).2 = l.filter (fun x => !memStr x (firedNames deps l em)) := by
  intro l
  induction l with
  | nil => intro em _; rfl
  | cons n rest ih =>
    intro em hn
    rw [scanOnce, firedNames]
    by_cases c : ((deps n).all fun d => memStr d em) = true
    · rw [if_pos c, if_pos c]
      simp only
      have h1 : memStr n (n :: firedNames deps rest (n :: em)) = true :=
        memStr_iff.mpr (List.mem_cons_self _ _)
      rw [List.filter_cons_of_neg (by simp [h1])]
      have h2 : rest.filter
          (fun x => !memStr x (n :: firedNames deps rest (n :: em))) =
          rest.filter (fun x => !memStr x (firedNames deps rest (n :: em))) := by
        apply List.filter_congr
        intro x hx
        have hxn : x ≠ n := fun he => (List.nodup_cons.mp hn).1 (he ▸ hx)
        simp [memStr, hxn]
      rw [h2, ih (n :: em) (List.nodup_cons.mp hn).2]
    · rw [if_neg c, if_neg c]
      simp only
      have hnm : n ∉ firedNames deps rest em := fun hm =>
        (List.nodup_cons.mp hn).1 ((firedNames_sublist deps rest em).subset hm)
      rw [List.filter_cons_of_pos (by simp [memStr_eq_false hnm])]
      rw [ih em (List.nodup_cons.mp hn).2]

theorem resolveLoop_eq_seqEmit (deps : String → List String) :
    ∀ (fuel : Nat) (remaining added emitted : List String),
      remaining.Nodup → (∀ x, memStr x added = memStr x emitted) →
      resolveLoop deps fuel remaining added = seqEmit deps fuel remaining emitted := by
  intro fuel
  induction fuel with
  | zero => intro remaining added emitted _ _; rfl
  | succ fuel ih =>
    intro remaining added emitted hn hme
    match remaining with
    | [] => rfl
    | n :: rest =>
      rw [resolveLoop, seqEmit]
      have hf : firedNames deps (n :: rest) added = firedNames deps (n :: rest) emitted :=
        firedNames_congr deps (n :: rest) added emitted hme
      have h1 : (scanOnce deps emitted (n :: rest)).1 = firedNames deps (n :: rest) added := by
        rw [scanOnce_fst, hf]
      rw [h1]
      by_cases hfi : (firedNames deps (n :: rest) added).isEmpty = true
      · rw [if_pos hfi, if_pos hfi]
        rw [ih rest (n :: added) (n :: emitted) (List.nodup_cons.mp hn).2
          (fun x => by simp [memStr, hme x])]
      · rw [if_neg hfi, if_neg hfi]
        have h2 : (scanOnce deps emitted (n :: rest)).2 =
            (n :: rest).filter (fun x => !memStr x (firedNames deps (n :: rest) added)) := by
          rw [scanOnce_snd deps (n :: rest) emitted hn, hf]
        rw [h2]
        have hcong : ∀ x,
            memStr x ((firedNames deps (n :: rest) added).reverse ++ added) =
            memStr x (firedNames deps (n :: rest) added ++ emitted) := by
          intro x
          rw [memStr_append, memStr_append, memStr_reverse, hme x]
        rw [ih _ _ _ (hn.filter _) hcong]

/-!
## Ordered-insertion and lookup lemmas
-/

theorem mem_insertStr {x s : String} :
    ∀ {l : List String}, x ∈ insertStr s l ↔ x = s ∨ x ∈ l := by
  intro l
  induction l with
  | nil => simp [insertStr]
  | cons y ys ih =>
    rw [insertStr]
    by_cases h1 : strLt y s = true
    · rw [if_pos h1]
      simp [ih]
      tauto
    · rw [if_neg h1]
      by_cases h2 : y = s
      · rw [if_pos h2]
        subst h2
        simp
      · rw [if_neg h2]
        simp

theorem pairwise_insertStr {s : String} :
    ∀ {l : List String}, l.Pairwise (fun a b => strLt a b = true) →
      (insertStr s l).Pairwise (fun a b => strLt a b = true) := by
  intro l
  induction l with
  | nil => intro _; simp [insertStr]
  | cons y ys ih =>
    intro hp
    rw [insertStr]
    rw [List.pairwise_cons] at hp
    by_cases h1 : strLt y s = true
    · rw [if_pos h1]
      rw [List.pairwise_cons]
      refine ⟨?_, ih hp.2⟩
      intro z hz
      rcases mem_insertStr.mp hz with h | h
      · exact h ▸ h1
      · exact hp.1 z h
    · rw [if_neg h1]
      by_cases h2 : y = s
      · rw [if_pos h2]
        exact List.pairwise_cons.mpr hp
      · rw [if_neg h2]
        have hd : strLt y s = false := by
          cases hd : strLt y s with
          | false => rfl
          | true => exact absurd hd h1
        have hsy : strLt s y = true := by
          cases hc : strLt s y with
          | true => rfl
          | false => exact absurd (strLt_eq_of_not hd hc) h2
        rw [List.pairwise_cons]
        refine ⟨?_, List.pairwise_cons.mpr hp⟩
        intro z hz
        rcases List.mem_cons.mp hz with h | h
        · exact h ▸ hsy
        · exact strLt_trans hsy (hp.1 z h)

theorem nodup_of_pairwise_strLt {l : List String}
    (h : l.Pairwise (fun a b => strLt a b = true)) : l.Nodup :=
  h.imp (fun hab => strLt_ne hab)

theorem pairwise_foldl_insertStr :
    ∀ (ms : List ResourceModel) (acc : List String),
      acc.Pairwise (fun a b => strLt a b = true) →
      (ms.foldl (fun a m => insertStr m.name a) acc).Pairwise
        (fun a b => strLt a b = true) := by
  intro ms
  induction ms with
  | nil => intro acc h; exact h
  | cons m rest ih =>
    intro acc h
    exact ih (insertStr m.name acc) (pairwise_insertStr h)

theorem mem_foldl_insertStr :
    ∀ (ms : List ResourceModel) (acc : List String) (x : String),
      x ∈ ms.foldl (fun a m => insertStr m.name a) acc ↔
        x ∈ acc ∨ x ∈ ms.map (fun m => m.name) := by
  intro ms
  induction ms with
  | nil => intro acc x; simp
  | cons m rest ih =>
    intro acc x
    rw [List.foldl_cons, ih (insertStr m.name acc) x, List.map_cons]
    rw [mem_insertStr]
    simp
    tauto

theorem pairwise_initRemaining (models : List ResourceModel) :
    (initRemaining models).Pairwise (fun a b => strLt a b = true) :=
  pairwise_foldl_insertStr _ [] (List.Pairwise.nil)

theorem nodup_initRemaining (models : List ResourceModel) :
    (initRemaining models).Nodup :=
  nodup_of_pairwise_strLt (pairwise_initRemaining models)

theorem mem_initRemaining {models : List ResourceModel} {x : String} :
    x ∈ initRemaining models ↔ x ∈ modelNames (regularModels models) := by
  rw [initRemaining, mem_foldl_insertStr]
  simp [modelNames]

theorem lookupLast_name :
    ∀ (l : List ResourceModel) (n : String) (init : Option ResourceModel),
      (∀ m, init = some m → m.name = n) →
      ∀ m, l.foldl (fun acc m => if m.name == n then some m else acc) init = some m →
        m.name = n := by
  intro l
  induction l with
  | nil => intro n init h m hm; exact h m hm
  | cons x xs ih =>
    intro n init h m hm
    rw [List.foldl_cons] at hm
    refine ih n _ ?_ m hm
    intro m' hm'
    by_cases hx : x.name == n
    · rw [if_pos hx] at hm'
      cases hm'
      exact eq_of_beq hx
    · rw [if_neg hx] at hm'
      exact h m' hm'

theorem lookupLast_mem :
    ∀ (l : List ResourceModel) (n : String) (init : Option ResourceModel) (m : ResourceModel),
      l.foldl (fun acc m => if m.name == n then some m else acc) init = some m →
        m ∈ l ∨ init = some m := by
  intro l
  induction l with
  | nil => intro n init m hm; exact Or.inr hm
  | cons x xs ih =>
    intro n init m hm
    rw [List.foldl_cons] at hm
    rcases ih n _ m hm with h | h
    · exact Or.inl (List.mem_cons_of_mem x h)
    · by_cases hx : x.name == n
      · rw [if_pos hx] at h
        cases h
        exact Or.inl (List.mem_cons_self _ _)
      · rw [if_neg hx] at h
        exact Or.inr h

theorem lookupLast_isSome :
    ∀ (l : List ResourceModel) (n : String) (init : Option ResourceModel),
      (n ∈ modelNames l ∨ ∃ m, init = some m) →
      ∃ m, l.foldl (fun acc m => if m.name == n then some m else acc) init = some m := by
  intro l
  induction l with
  | nil =>
    intro n init h
    rcases h with h | h
    · simp [modelNames] at h
    · exact h
  | cons x xs ih =>
    intro n init h
    rw [List.foldl_cons]
    rcases h with h | ⟨m, hm⟩
    · rw [modelNames, List.map_cons, List.mem_cons] at h
      rcases h with h | h
      · refine ih n _ (Or.inr ⟨x, ?_⟩)
        rw [if_pos (beq_iff_eq.mpr h.symm)]
      · exact ih n _ (Or.inl h)
    · refine ih n _ (Or.inr ?_)
      by_cases hx : x.name == n
      · exact ⟨x, by rw [if_pos hx]⟩
      · exact ⟨m, by rw [if_neg hx]; exact hm⟩

theorem foldl_lookup_skip :
    ∀ (l : List ResourceModel) (n : String) (init : Option ResourceModel),
      (∀ y ∈ l, y.name ≠ n) →
      l.foldl (fun acc m => if m.name == n then some m else acc) init = init := by
  intro l
  induction l with
  | nil => intro n init _; rfl
  | cons x xs ih =>
    intro n init h
    rw [List.foldl_cons,
      if_neg (by simp only [beq_iff_eq]; exact h x (List.mem_cons_self _ _))]
    exact ih n init (fun y hy => h y (List.mem_cons_of_mem x hy))

theorem lookupLast_nodup :
    ∀ (l : List ResourceModel), (modelNames l).Nodup →
      ∀ m ∈ l, lookupLast l m.name = some m := by
  intro l
  induction l with
  | nil => intro _ m hm; simp at hm
  | cons x xs ih =>
    intro hn m hm
    rw [modelNames, List.map_cons, List.nodup_cons] at hn
    rcases List.mem_cons.mp hm with h | h
    · subst h
      rw [lookupLast, List.foldl_cons, if_pos (beq_iff_eq.mpr rfl)]
      exact foldl_lookup_skip xs m.name (some m)
        (fun y hy hne => hn.1 (hne ▸ List.mem_map_of_mem (fun r => r.name) hy))
    · have hne : x.name ≠ m.name := by
        intro he
        exact hn.1 (he ▸ List.mem_map_of_mem (fun r => r.name) h)
      rw [lookupLast, List.foldl_cons, if_neg (by simpa using hne)]
      exact ih hn.2 m h

/-!
## Sorting and emission lemmas
-/

theorem perm_insertByName (m : ResourceModel) :
    ∀ (l : List ResourceModel), (insertByName m l).Perm (m :: l) := by
  intro l
  induction l with
  | nil => exact List.Perm.refl _
  | cons x xs ih =>
    rw [insertByName]
    by_cases h : strLt x.name m.name = true
    · rw [if_pos h]
      exact (ih.cons x).trans (List.Perm.swap m x xs)
    · rw [if_neg h]

theorem perm_sortByName : ∀ (l : List ResourceModel), (sortByName l).Perm l := by
  intro l
  induction l with
  | nil => exact List.Perm.refl _
  | cons x xs ih =>
    rw [sortByName, List.foldr_cons]
    exact (perm_insertByName x _).trans (ih.cons x)

theorem mem_insertByName {x m : ResourceModel} {l : List ResourceModel} :
    x ∈ insertByName m l ↔ x = m ∨ x ∈ l := by
  rw [(perm_insertByName m l).mem_iff]
  simp

theorem pairwise_insertByName {m : ResourceModel} :
    ∀ {l : List ResourceModel},
      l.Pairwise (fun a b => strLt b.name a.name = false) →
      (insertByName m l).Pairwise (fun a b => strLt b.name a.name = false) := by
  intro l
  induction l with
  | nil => intro _; simp [insertByName]
  | cons x xs ih =>
    intro hp
    rw [List.pairwise_cons] at hp
    rw [insertByName]
    by_cases h : strLt x.name m.name = true
    · rw [if_pos h]
      rw [List.pairwise_cons]
      refine ⟨?_, ih hp.2⟩
      intro z hz
      rcases mem_insertByName.mp hz with hzm | hzx
      · exact hzm ▸ strLt_asymm h
      · exact hp.1 z hzx
    · rw [if_neg h]
      have hxm : strLt x.name m.name = false := by
        cases hc : strLt x.name m.name with
        | false => rfl
        | true => exact absurd hc h
      rw [List.pairwise_cons]
      refine ⟨?_, List.pairwise_cons.mpr hp⟩
      intro z hz
      rcases List.mem_cons.mp hz with hzx | hzxs
      · exact hzx ▸ hxm
      · exact strLt_le_trans hxm (hp.1 z hzxs)

theorem pairwise_sortByName (l : List ResourceModel) :
    (sortByName l).Pairwise (fun a b => strLt b.name a.name = false) := by
  induction l with
  | nil => simp [sortByName]
  | cons x xs ih =>
    rw [sortByName, List.foldr_cons]
    exact pairwise_insertByName ih

theorem recordPhaseNames_perm (models : List ResourceModel) :
    (recordPhaseNames models).Perm (initRemaining models) :=
  resolveLoop_perm _ _ _ _ (nodup_initRemaining models) (Nat.le_refl _)

theorem mem_recordPhaseNames {models : List ResourceModel} {n : String} :
    n ∈ recordPhaseNames models ↔ n ∈ modelNames (regularModels models) := by
  rw [(recordPhaseNames_perm models).mem_iff, mem_initRemaining]

theorem regularNames_sub_modelNames {models : List ResourceModel} {n : String}
    (h : n ∈ modelNames (regularModels models)) : n ∈ modelNames models := by
  rw [modelNames, List.mem_map] at h ⊢
  obtain ⟨m, hm, he⟩ := h
  exact ⟨m, (List.mem_filter.mp hm).1, he⟩

theorem enumNames_sub_modelNames {models : List ResourceModel} {n : String}
    (h : n ∈ enumNames models) : n ∈ modelNames models := by
  rw [enumNames, modelNames, List.mem_map] at h
  rw [modelNames, List.mem_map]
  obtain ⟨m, hm, he⟩ := h
  exact ⟨m, (List.mem_filter.mp hm).1, he⟩

/-- Every model name has an emitted definition carrying that name. -/
theorem exists_emitted_named (models : List ResourceModel) (n : String)
    (h : n ∈ modelNames models) :
    ∃ m' ∈ emissionList models, m'.name = n := by
  by_cases hE : ∃ me ∈ models, isEnumKind me = true ∧ me.name = n
  · obtain ⟨me, hme, hkind, hname⟩ := hE
    refine ⟨me, ?_, hname⟩
    rw [emissionList, List.mem_append]
    left
    rw [(perm_sortByName _).mem_iff]
    exact List.mem_filter.mpr ⟨hme, hkind⟩
  · rw [modelNames, List.mem_map] at h
    obtain ⟨m₀, hm₀, hname₀⟩ := h
    have hk : isEnumKind m₀ = false := by
      cases hc : isEnumKind m₀ with
      | false => rfl
      | true => exact absurd ⟨m₀, hm₀, hc, hname₀⟩ hE
    have hreg : n ∈ modelNames (regularModels models) := by
      rw [modelNames, List.mem_map]
      exact ⟨m₀, List.mem_filter.mpr ⟨hm₀, by simp [hk]⟩, hname₀⟩
    have hrec : n ∈ recordPhaseNames models := mem_recordPhaseNames.mpr hreg
    have hsome : ∃ m', lookupLast models n = some m' :=
      lookupLast_isSome models n none
        (Or.inl (regularNames_sub_modelNames hreg))
    obtain ⟨m', hm'⟩ := hsome
    refine ⟨m', ?_, lookupLast_name models n none (by intro m hm; cases hm) m' hm'⟩
    rw [emissionList, List.mem_append]
    right
    rw [recordPhaseModels, List.mem_flatMap]
    exact ⟨n, hrec, by rw [hm']; simp⟩

theorem map_name_flatMap_lookup (models : List ResourceModel) :
    ∀ (ns : List String), (∀ n ∈ ns, n ∈ modelNames models) →
      ((ns.flatMap (fun n => (lookupLast models n).toList)).map (fun m => m.name)) = ns := by
  intro ns
  induction ns with
  | nil => intro _; simp
  | cons n rest ih =>
    intro h
    obtain ⟨m', hm'⟩ := lookupLast_isSome models n none
      (Or.inl (h n (List.mem_cons_self _ _)))
    have hm₂ : lookupLast models n = some m' := hm'
    rw [List.flatMap_cons, List.map_append, hm₂]
    have hname := lookupLast_name models n none (by intro m hm; cases hm) m' hm'
    simp only [Option.toList_some, List.map_cons, List.map_nil, hname]
    rw [List.cons_append, List.nil_append]
    congr 1
    exact ih (fun x hx => h x (List.mem_cons_of_mem n hx))

/-- The record-phase model sequence carries exactly the record-phase
names. -/
theorem map_name_recordPhase (models : List ResourceModel) :
    (recordPhaseModels models).map (fun m => m.name) = recordPhaseNames models := by
  rw [recordPhaseModels]
  exact map_name_flatMap_lookup models (recordPhaseNames models)
    (fun n hn => regularNames_sub_modelNames (mem_recordPhaseNames.mp hn))

/-!
## Completer and emitter lemmas
-/

/-- Everything the completer adds to the extracted model list is an
empty placeholder with the fixed description and the docs url. -/
theorem completeEmptyTypes_shape :
    ∀ (ids : List String) (acc : List ResourceModel) (m : ResourceModel),
      m ∈ ids.foldl (fun acc t =>
        if acc.any (fun m => m.name == t) then acc
        else acc ++ [{ name := t, description := "This type has no fields.",
                       fields := [], url := docsUrl t }]) acc →
      m ∈ acc ∨ (m.fields = [] ∧ m.description = "This type has no fields." ∧
        m.url = docsUrl m.name) := by
  intro ids
  induction ids with
  | nil => intro acc m hm; exact Or.inl hm
  | cons t rest ih =>
    intro acc m hm
    rw [List.foldl_cons] at hm
    rcases ih _ m hm with h | h
    · by_cases hc : (acc.any fun m => m.name == t) = true
      · rw [if_pos hc] at h
        exact Or.inl h
      · rw [if_neg hc] at h
        rcases List.mem_append.mp h with h | h
        · exact Or.inl h
        · rcases List.mem_singleton.mp h with rfl
          exact Or.inr ⟨rfl, rfl, rfl⟩
    · exact Or.inr h

theorem mem_completeEmptyTypes {tocIds : List String} {models : List ResourceModel}
    {m : ResourceModel} (hm : m ∈ completeEmptyTypes tocIds models) :
    m ∈ models ∨ (m.fields = [] ∧ m.description = "This type has no fields." ∧
      m.url = docsUrl m.name) :=
  completeEmptyTypes_shape _ models m hm

theorem isPrefixOf_append_self : ∀ (l r : List Char), l.isPrefixOf (l ++ r) = true := by
  intro l r
  induction l with
  | nil => simp [List.isPrefixOf]
  | cons c cs ih => simp [List.isPrefixOf, ih]

theorem pyStartsWith_append (p r : String) : pyStartsWith (p ++ r) p = true := by
  rw [pyStartsWith, String.data_append]
  exact isPrefixOf_append_self p.data r.data

theorem pyStartsWith_append₂ (p a b : String) :
    pyStartsWith (p ++ a ++ b) p = true := by
  rw [pyStartsWith, String.data_append, String.data_append, List.append_assoc]
  exact isPrefixOf_append_self p.data (a.data ++ b.data)

theorem isPrefixOf_append_right :
    ∀ {p s : List Char} (r : List Char), p.isPrefixOf s = true →
      p.isPrefixOf (s ++ r) = true := by
  intro p
  induction p with
  | nil => intro s r _; simp [List.isPrefixOf]
  | cons c cs ih =>
    intro s r h
    match s with
    | [] => simp [List.isPrefixOf] at h
    | d :: ds =>
      rw [List.cons_append]
      simp only [List.isPrefixOf, Bool.and_eq_true] at h ⊢
      exact ⟨h.1, ih r h.2⟩

theorem pyStartsWith_append_right (b : String) {s p : String}
    (h : pyStartsWith s p = true) : pyStartsWith (s ++ b) p = true := by
  rw [pyStartsWith, String.data_append]
  exact isPrefixOf_append_right b.data h

theorem head_some_append {l r : List Char} {c : Char} (h : l.head? = some c) :
    (l ++ r).head? = some c := by
  cases l with
  | nil => simp at h
  | cons a as => simpa using h

/-- A string whose first character is not `O` cannot start with
`Optional[`. -/
theorem pyStartsWith_optional_false (s : String) (c : Char)
    (h : s.data.head? = some c) (hc : c = 'O' → False) :
    pyStartsWith s "Optional[" = false := by
  rw [pyStartsWith]
  cases hs : s.data with
  | nil => rw [hs] at h; simp at h
  | cons a rest =>
    rw [hs] at h
    simp only [List.head?_cons, Option.some.injEq] at h
    rw [show "Optional[".data = 'O' :: "ptional[".data by decide]
    have hOa : ('O' == a) = false := by
      cases hb : ('O' == a) with
      | false => rfl
      | true =>
        exfalso
        apply hc
        rw [← h]
        exact (eq_of_beq hb).symm
    simp [List.isPrefixOf, hOa]

theorem countStr_eq_zero {x : String} : ∀ {l : List String}, x ∉ l → countStr x l = 0 := by
  intro l
  induction l with
  | nil => intro _; rfl
  | cons y ys ih =>
    intro h
    rw [countStr,
      if_neg (fun he : y = x => h (by rw [← he]; exact List.mem_cons_self y ys)),
      ih (fun hm => h (List.mem_cons_of_mem y hm))]

theorem countStr_perm {x : String} : ∀ {l l' : List String}, l.Perm l' →
    countStr x l = countStr x l' := by
  intro l l' h
  induction h with
  | nil => rfl
  | cons a _ ih => rw [countStr, countStr, ih]
  | swap a b l => rw [countStr, countStr, countStr, countStr]; omega
  | trans _ _ ih₁ ih₂ => rw [ih₁, ih₂]

theorem countStr_eq_one {x : String} : ∀ {l : List String}, l.Nodup → x ∈ l →
    countStr x l = 1 := by
  intro l
  induction l with
  | nil => intro _ h; simp at h
  | cons y ys ih =>
    intro hn hm
    rcases List.mem_cons.mp hm with h | h
    · subst h
      rw [countStr, if_pos rfl, countStr_eq_zero (List.nodup_cons.mp hn).1]
    · have hne : y ≠ x := fun he => (List.nodup_cons.mp hn).1 (he ▸ h)
      rw [countStr, if_neg hne, ih (List.nodup_cons.mp hn).2 h]

/-!
## Claims
-/

/-- C1 (counterexample). The claim says that on the type token
`map(key: string, value: enum(Status))` the parser yields a map value
type with base name `Status` and the enum-reference flag set.  It does
not: `parse_field_type` only object-unwraps a map value, never
enum-unwraps it, so the map value type stays `"enum(Status)"` and the
enum flag stays false. -/
theorem c1_counterexample :
    ¬ ((parse_field_type "map(key: string, value: enum(Status))").map_value_type =
          some "Status" ∧
       (parse_field_type "map(key: string, value: enum(Status))").is_enum = true) := by
  decide

/-- C1 (amended). On `map(key: string, value: enum(Status))`,
`parse_field_type` returns `is_map = true` with key type `string`, but
the map value type remains the unparsed wrapper text `enum(Status)`
(only `object(...)` wrappers are unwrapped inside map values), the enum
flag is false, and the working type text is left as the whole token. -/
theorem c1_theorem :
    parse_field_type "map(key: string, value: enum(Status))" =
      { type_text := "map(key: string, value: enum(Status))"
        is_collection := false
        is_map := true
        map_key_type := some "string"
        map_value_type := some "enum(Status)"
        is_enum := false } := by
  decide

/-- C2 (counterexample). The claim says the emission order of
record-kind models equals the round-based algorithm in which the ready
set is frozen at the start of each round.  On `c2Models` (`A` free,
`B` depending on `A`, `C` free) the code emits `[A, B, C]`, because
`B` becomes ready in mid-pass once `A` is emitted, while the spec
rounds give `[A, C, B]`. -/
theorem c2_counterexample :
    recordPhaseNames c2Models = ["A", "B", "C"] ∧
    roundEmit (depsOfName c2Models) (initRemaining c2Models).length
      (initRemaining c2Models) (enumNames c2Models) = ["A", "C", "B"] ∧
    recordPhaseNames c2Models ≠
      roundEmit (depsOfName c2Models) (initRemaining c2Models).length
        (initRemaining c2Models) (enumNames c2Models) := by
  refine ⟨by decide, by decide, by decide⟩

/-- C2 (amended). For every model list, the record-phase emission order
of `generate_pydantic_models` equals the sequential-scan algorithm
`seqEmit`: repeatedly scan the remaining record-kind names in ascending
order, emitting each name whose dependencies are all already emitted at
the moment it is visited (so names freed earlier in the same scan are
emitted in that scan); a scan that emits nothing forcibly emits the
smallest remaining name. -/
theorem c2_theorem :
    ∀ models : List ResourceModel,
      recordPhaseNames models =
        seqEmit (depsOfName models) (initRemaining models).length
          (initRemaining models) (enumNames models) := by
  intro models
  exact resolveLoop_eq_seqEmit _ _ _ _ _ (nodup_initRemaining models) (fun x => rfl)

/-- C3 (counterexample). The claim says every emitted field is optional
regardless of its type shape.  A non-enum collection field is emitted
with the bare annotation `list[...]` and a non-enum map field with the
bare annotation `dict[...]`, neither wrapped in `Optional[...]`. -/
theorem c3_counterexample :
    get_python_type
        { name := "tabs", type_name := "Tab", description := "",
          is_collection := true, is_map := false, map_key_type := none,
          map_value_type := none, is_enum := false } ["Tab"] = "list[Tab]" ∧
    pyStartsWith
      (get_python_type
        { name := "tabs", type_name := "Tab", description := "",
          is_collection := true, is_map := false, map_key_type := none,
          map_value_type := none, is_enum := false } ["Tab"]) "Optional[" = false ∧
    get_python_type
        { name := "meta", type_name := "map", description := "",
          is_collection := false, is_map := true, map_key_type := some "string",
          map_value_type := some "Pos", is_enum := false } ["Pos"] = "dict[str, Pos]" ∧
    pyStartsWith
      (get_python_type
        { name := "meta", type_name := "map", description := "",
          is_collection := false, is_map := true, map_key_type := some "string",
          map_value_type := some "Pos", is_enum := false } ["Pos"]) "Optional[" = false := by
  refine ⟨by decide, by decide, by decide, by decide⟩

/-- C3 (amended). A field is emitted with an `Optional[...]`-wrapped
annotation exactly when its descriptor is an enum reference or neither
a collection nor a map; the enum branch takes precedence, so an
enum-reference field is `Optional[...]` even when it is also marked as
a collection.  A non-enum collection field gets the bare annotation
`list[...]` and a non-enum non-collection map field the bare annotation
`dict[...]`, neither wrapped in `Optional[...]`. -/
theorem c3_theorem :
    ∀ (f : Field) (ns : List String),
      (f.is_enum = true ∨ (f.is_collection = false ∧ f.is_map = false) →
        pyStartsWith (get_python_type f ns) "Optional[" = true) ∧
      (f.is_enum = false → f.is_collection = true →
        pyStartsWith (get_python_type f ns) "list[" = true ∧
        pyStartsWith (get_python_type f ns) "Optional[" = false) ∧
      (f.is_enum = false → f.is_collection = false → f.is_map = true →
        pyStartsWith (get_python_type f ns) "dict[" = true ∧
        pyStartsWith (get_python_type f ns) "Optional[" = false) := by
  intro f ns
  refine ⟨?_, ?_, ?_⟩
  · intro h
    rw [get_python_type]
    by_cases he : f.is_enum = true
    · rw [if_pos he]
      exact pyStartsWith_append₂ "Optional[" f.type_name "]"
    · have h2 := h.resolve_left he
      rw [if_neg he]
      simp only [h2.1, h2.2, Bool.false_eq_true, if_false]
      exact pyStartsWith_append₂ "Optional[" _ "]"
  · intro he hc
    rw [get_python_type]
    simp only [he, hc, Bool.false_eq_true, if_false, eq_self_iff_true, if_true]
    constructor
    · exact pyStartsWith_append_right "]" (pyStartsWith_append "list[" _)
    · apply pyStartsWith_optional_false _ 'l'
      · rw [String.data_append, String.data_append]
        exact head_some_append (head_some_append (by decide))
      · intro hcl
        exact absurd hcl (by decide)
  · intro he hc hm
    rw [get_python_type]
    simp only [he, hc, hm, Bool.false_eq_true, if_false, eq_self_iff_true, if_true]
    constructor
    · exact pyStartsWith_append_right "]" (pyStartsWith_append_right _
        (pyStartsWith_append_right ", " (pyStartsWith_append "dict[" _)))
    · apply pyStartsWith_optional_false _ 'd'
      · rw [String.data_append, String.data_append, String.data_append,
          String.data_append]
        exact head_some_append (head_some_append (head_some_append
          (head_some_append (by decide))))
      · intro hcl
        exact absurd hcl (by decide)

/-- C3 (witness): a plain scalar field and an enum-reference collection
field both get optional annotations (the enum branch takes precedence),
while a plain collection field gets bare `list[...]` and a plain map
field bare `dict[...]`, neither optional. -/
theorem c3_witness :
    pyStartsWith
      (get_python_type
        { name := "title", type_name := "string", description := "",
          is_collection := false, is_map := false, map_key_type := none,
          map_value_type := none, is_enum := false } []) "Optional[" = true ∧
    pyStartsWith
      (get_python_type
        { name := "kinds", type_name := "Foo", description := "",
          is_collection := true, is_map := false, map_key_type := none,
          map_value_type := none, is_enum := true } []) "Optional[" = true ∧
    (pyStartsWith
      (get_python_type
        { name := "tabs", type_name := "Tab", description := "",
          is_collection := true, is_map := false, map_key_type := none,
          map_value_type := none, is_enum := false } []) "list[" = true ∧
     pyStartsWith
      (get_python_type
        { name := "tabs", type_name := "Tab", description := "",
          is_collection := true, is_map := false, map_key_type := none,
          map_value_type := none, is_enum := false } []) "Optional[" = false) ∧
    (pyStartsWith
      (get_python_type
        { name := "meta", type_name := "map", description := "",
          is_collection := false, is_map := true, map_key_type := some "string",
          map_value_type := some "Pos", is_enum := false } []) "dict[" = true ∧
     pyStartsWith
      (get_python_type
        { name := "meta", type_name := "map", description := "",
          is_collection := false, is_map := true, map_key_type := some "string",
          map_value_type := some "Pos", is_enum := false } []) "Optional[" = false) :=
  ⟨(c3_theorem _ []).1 (Or.inr ⟨rfl, rfl⟩),
   (c3_theorem _ []).1 (Or.inl rfl),
   (c3_theorem _ []).2.1 rfl rfl,
   (c3_theorem _ []).2.2 rfl rfl rfl⟩

/-- C4 (counterexample). The claim says every referenced model name has
exactly one emitted definition.  With two enum-kind models both named
`AType` and a record `R` whose field references `AType`, the output
contains two definitions named `AType`. -/
theorem c4_counterexample :
    (emissionList c4Models).map (fun m => m.name) = ["AType", "AType", "R"] ∧
    (∃ m ∈ emissionList c4Models, ∃ f ∈ m.fields, f.type_name = "AType") ∧
    ((emissionList c4Models).filter (fun m => m.name == "AType")).length = 2 := by
  refine ⟨by decide, by decide, by decide⟩

/-- C4 (amended). After the synthetic model completer runs, every field
type name (and map value type name) that is a model name of the
completed list has at least one emitted definition with that name;
uniqueness can fail when input models share a name. -/
theorem c4_theorem :
    ∀ (tocIds : List String) (models : List ResourceModel)
      (m : ResourceModel) (f : Field),
      m ∈ emissionList (completeEmptyTypes tocIds models) → f ∈ m.fields →
      (memStr f.type_name (modelNames (completeEmptyTypes tocIds models)) = true →
        ∃ m' ∈ emissionList (completeEmptyTypes tocIds models),
          m'.name = f.type_name) ∧
      (∀ v, f.map_value_type = some v →
        memStr v (modelNames (completeEmptyTypes tocIds models)) = true →
        ∃ m' ∈ emissionList (completeEmptyTypes tocIds models), m'.name = v) := by
  intro tocIds models m f _ _
  constructor
  · intro hmem
    exact exists_emitted_named _ _ (memStr_iff.mp hmem)
  · intro v _ hmem
    exact exists_emitted_named _ _ (memStr_iff.mp hmem)

/-- C4 (witness): in a two-model unit where `R` references `S`, the
reference `S` resolves to an emitted definition. -/
theorem c4_witness :
    ∃ m' ∈ emissionList (completeEmptyTypes [] c4WitModels), m'.name = "S" := by
  have h := c4_theorem [] c4WitModels
    { name := "R", description := "", fields := [fieldRef "s" "S"], url := "" }
    (fieldRef "s" "S") (by decide) (by decide)
  exact h.1 (by decide)

/-- C5 (counterexample). The claim says no model name is emitted more
than once, for every input including duplicate names.  Two enum-kind
models named `SType` are both emitted (the enum phase iterates the
model list, not a deduplicated set). -/
theorem c5_counterexample :
    (emissionList c5Models).map (fun m => m.name) = ["SType", "SType"] ∧
    ¬ ((emissionList c5Models).map (fun m => m.name)).Nodup := by
  refine ⟨by decide, by decide⟩

/-- C5 (amended). When the input model names are pairwise distinct, no
name appears more than once among the emitted definitions. -/
theorem c5_theorem :
    ∀ models : List ResourceModel,
      (modelNames models).Nodup →
      ((emissionList models).map (fun m => m.name)).Nodup := by
  intro models hn
  rw [emissionList, List.map_append]
  have hperm : ((sortByName (enumModels models)).map (fun m => m.name)).Perm
      ((enumModels models).map (fun m => m.name)) :=
    (perm_sortByName _).map _
  have hn' : (models.map (fun m => m.name)).Nodup := hn
  apply List.Nodup.append
  · apply hperm.symm.nodup
    exact ((List.filter_sublist models).map (fun m => m.name)).nodup hn'
  · rw [map_name_recordPhase]
    exact (recordPhaseNames_perm models).symm.nodup (nodup_initRemaining models)
  · intro x hx1 hx2
    have hxe : x ∈ enumNames models := by
      rw [enumNames, modelNames]
      exact hperm.mem_iff.mp hx1
    rw [map_name_recordPhase] at hx2
    have hxr : x ∈ modelNames (regularModels models) :=
      mem_recordPhaseNames.mp hx2
    rw [enumNames, modelNames, List.mem_map] at hxe
    rw [modelNames, List.mem_map] at hxr
    obtain ⟨me, hme, hmex⟩ := hxe
    obtain ⟨mr, hmr, hmrx⟩ := hxr
    have hke : isEnumKind me = true := (List.mem_filter.mp hme).2
    have hkr : isEnumKind mr = false := by
      have := (List.mem_filter.mp hmr).2
      simpa using this
    have hmm : me = mr :=
      List.inj_on_of_nodup_map hn (List.mem_filter.mp hme).1
        (List.mem_filter.mp hmr).1 (by rw [hmex, hmrx])
    rw [hmm, hkr] at hke
    exact Bool.false_ne_true hke

/-- C5 (witness): two distinct names are emitted without repetition. -/
theorem c5_witness :
    ((emissionList c5WitModels).map (fun m => m.name)).Nodup :=
  c5_theorem c5WitModels (by decide)

/-- C6 (counterexample). The claim says every synthesized placeholder
is Record-kind and emitted as a record definition.  The id `FooType`
matches the heuristic, and the synthesized model, having a name ending
in `Type`, is classified enum-kind and rendered as an enum definition. -/
theorem c6_counterexample :
    (completeEmptyTypes ["FooType"] []).map
        (fun m => (m.fields.length, m.description, isEnumKind m, rendersAsEnum m)) =
      [(0, "This type has no fields.", true, true)] ∧
    (emissionList (completeEmptyTypes ["FooType"] [])).map rendersAsEnum = [true] := by
  refine ⟨by decide, by decide⟩

/-- C6 (amended). Every model synthesized by the completer has no
fields and description exactly `This type has no fields.`; it is
classified and rendered as an enum definition precisely when its name
ends in `Type`, and as a record definition otherwise; and a definition
with its name is emitted. -/
theorem c6_theorem :
    ∀ (tocIds : List String) (models : List ResourceModel) (m : ResourceModel),
      m ∈ completeEmptyTypes tocIds models → m ∉ models →
      m.fields = [] ∧ m.description = "This type has no fields." ∧
      isEnumKind m = pyEndsWith m.name "Type" ∧
      rendersAsEnum m = pyEndsWith m.name "Type" ∧
      ∃ m' ∈ emissionList (completeEmptyTypes tocIds models), m'.name = m.name := by
  intro tocIds models m hm hnotin
  rcases mem_completeEmptyTypes hm with h | h
  · exact absurd h hnotin
  · refine ⟨h.1, h.2.1, ?_, ?_, ?_⟩
    · rw [isEnumKind, h.1]
      simp
    · rw [rendersAsEnum, h.1]
      simp
    · apply exists_emitted_named
      rw [modelNames, List.mem_map]
      exact ⟨m, hm, rfl⟩

/-- C6 (witness): the placeholder synthesized for
`FooSuggestionState` (whose name does not end in `Type`, hence is
record-rendered). -/
theorem c6_witness :
    c6m.fields = [] ∧ c6m.description = "This type has no fields." ∧
    isEnumKind c6m = pyEndsWith c6m.name "Type" ∧
    rendersAsEnum c6m = pyEndsWith c6m.name "Type" ∧
    ∃ m' ∈ emissionList (completeEmptyTypes ["FooSuggestionState"] []),
      m'.name = c6m.name :=
  c6_theorem ["FooSuggestionState"] [] c6m (by decide) (by decide)

/-- C7 (counterexample). The claim says every enum-kind model is
emitted strictly before every record-kind model, for every input.  On
`c7Models` (a record and an enum-kind model both named `zz`, plus a
record `aa`) the record phase looks the name `zz` up in the
last-wins model dictionary and re-emits the enum-kind model after the
record `aa`, so the emitted kind sequence is `[enum, record, enum]`. -/
theorem c7_counterexample :
    (emissionList c7Models).map isEnumKind = [true, false, true] ∧
    (emissionList c7Models).map (fun m => m.name) = ["zz", "aa", "zz"] := by
  refine ⟨by decide, by decide⟩

/-- C7 (amended). When the input model names are pairwise distinct, the
emitted sequence is the sorted enum-kind models followed by the
record-phase models: every definition in the first block is enum-kind
and they appear in ascending name order, and every definition in the
second block is record-kind. -/
theorem c7_theorem :
    ∀ models : List ResourceModel,
      (modelNames models).Nodup →
      emissionList models = sortByName (enumModels models) ++ recordPhaseModels models ∧
      (∀ m ∈ sortByName (enumModels models), isEnumKind m = true) ∧
      (sortByName (enumModels models)).Pairwise
        (fun a b => strLt b.name a.name = false) ∧
      (∀ m ∈ recordPhaseModels models, isEnumKind m = false) := by
  intro models hn
  refine ⟨rfl, ?_, pairwise_sortByName _, ?_⟩
  · intro m hm
    have hmem : m ∈ enumModels models := (perm_sortByName _).mem_iff.mp hm
    exact (List.mem_filter.mp hmem).2
  · intro m hm
    rw [recordPhaseModels, List.mem_flatMap] at hm
    obtain ⟨n, hnr, hmn⟩ := hm
    have hlm : lookupLast models n = some m := Option.mem_toList.mp hmn
    have hreg : n ∈ modelNames (regularModels models) :=
      mem_recordPhaseNames.mp hnr
    rw [modelNames, List.mem_map] at hreg
    obtain ⟨mr, hmr, hmrname⟩ := hreg
    have hlook := lookupLast_nodup models hn mr (List.mem_filter.mp hmr).1
    rw [hmrname, hlm] at hlook
    have hmeq : m = mr := Option.some.inj hlook
    have := (List.mem_filter.mp hmr).2
    rw [hmeq]
    simpa using this

/-- C7 (witness): with distinct names, the enum-kind model `AType` is
emitted first and the record `B` after it. -/
theorem c7_witness :
    emissionList c7WitModels =
      sortByName (enumModels c7WitModels) ++ recordPhaseModels c7WitModels ∧
    (∀ m ∈ sortByName (enumModels c7WitModels), isEnumKind m = true) ∧
    (sortByName (enumModels c7WitModels)).Pairwise
      (fun a b => strLt b.name a.name = false) ∧
    (∀ m ∈ recordPhaseModels c7WitModels, isEnumKind m = false) :=
  c7_theorem c7WitModels (by decide)

/-- C8 (confirmed). For every input model list — cyclic dependency
graphs included — the record-phase loop emits the name of every
record-kind model exactly once: the fuelled loop empties the remaining
set, so the Python `while` loop terminates with each record-kind name
processed exactly once.  Models are identified by name throughout the
generator (`model_dict` is keyed by name). -/
theorem c8_theorem :
    ∀ (models : List ResourceModel) (m : ResourceModel),
      m ∈ models → isEnumKind m = false →
      countStr m.name (recordPhaseNames models) = 1 := by
  intro models m hm hk
  rw [countStr_perm (recordPhaseNames_perm models)]
  apply countStr_eq_one (nodup_initRemaining models)
  rw [mem_initRemaining, modelNames, List.mem_map]
  exact ⟨m, List.mem_filter.mpr ⟨hm, by simp [hk]⟩, rfl⟩

/-- C8 (witness): the cyclic pair `A → B`, `B → A` terminates and each
name is emitted exactly once. -/
theorem c8_witness :
    countStr "A" (recordPhaseNames c8Models) = 1 ∧
    countStr "B" (recordPhaseNames c8Models) = 1 :=
  ⟨c8_theorem c8Models
      { name := "A", description := "", fields := [fieldRef "b" "B"], url := "" }
      (by decide) (by decide),
   c8_theorem c8Models
      { name := "B", description := "", fields := [fieldRef "a" "A"], url := "" }
      (by decide) (by decide)⟩

/-- C9 (confirmed). For every enum-rendered model and every field built
from an enum documentation row, the emitted constant line is exactly
the uppercased literal as identifier with the literal itself as the
quoted wire value: the wire value round-trips the documented literal
text even when the identifier differs from it. -/
theorem c9_theorem :
    ∀ (m : ResourceModel) (allM : List ResourceModel) (raw desc : String),
      rendersAsEnum m = true → enumRowField raw desc ∈ m.fields →
      ("    " ++ pyUpper (enumRowField raw desc).name ++ " = \"" ++
        (enumRowField raw desc).name ++ "\"  # " ++ desc) ∈ modelCodeLines m allM := by
  intro m allM raw desc hr hf
  rw [modelCodeLines, if_pos hr]
  have hne : m.fields.isEmpty = false := by
    cases hfl : m.fields with
    | nil => rw [hfl] at hf; simp at hf
    | cons a b => rfl
  rw [hne, if_neg Bool.false_ne_true]
  have hmem : ("    " ++ pyUpper (enumRowField raw desc).name ++ " = \"" ++
      (enumRowField raw desc).name ++ "\"  # " ++ desc) ∈
      m.fields.map enumFieldLine :=
    List.mem_map_of_mem enumFieldLine hf
  simp only [List.mem_append]
  exact Or.inl (Or.inr hmem)

/-- C9 (witness): the literal `range` is emitted as
`RANGE = "range"`, the identifier and the wire value differing. -/
theorem c9_witness :
    ("    RANGE = \"range\"  # doc") ∈ modelCodeLines c9Model [] ∧
    pyUpper "range" ≠ "range" := by
  constructor
  · have h := c9_theorem c9Model [] "range" "doc" (by decide) (by decide)
    have e : ("    " ++ pyUpper (enumRowField "range" "doc").name ++ " = \"" ++
        (enumRowField "range" "doc").name ++ "\"  # " ++ "doc") =
        "    RANGE = \"range\"  # doc" := by decide
    exact e ▸ h
  · decide

/-- C10 (confirmed). Every enum-rendered model with zero fields is
emitted as its header followed by exactly the comment that no enum
values were documented and the single member
`UNSPECIFIED = "UNSPECIFIED"`. -/
theorem c10_theorem :
    ∀ (m : ResourceModel) (allM : List ResourceModel),
      rendersAsEnum m = true → m.fields = [] →
      modelCodeLines m allM =
        enumHeaderLines m ++
          ["    # No enum values defined in the API documentation",
           "    UNSPECIFIED = \"UNSPECIFIED\"", ""] := by
  intro m allM hr hf
  rw [modelCodeLines, if_pos hr, hf]
  simp

/-- C10 (witness): the synthesized `FooType` placeholder is emitted as
an enum with the comment and the single `UNSPECIFIED` member. -/
theorem c10_witness :
    modelCodeLines c10Model [] =
      ["class FooType(str, Enum):", "    \"\"\"", "    x", "    \"\"\"",
       "    # No enum values defined in the API documentation",
       "    UNSPECIFIED = \"UNSPECIFIED\"", ""] := by
  rw [c10_theorem c10Model [] (by decide) rfl]
  decide

end DraftGen
